import Mathlib

/-!
Verification of the expat gross-to-net tax calculator engine.

The source program keeps bracket tables as user-editable rows with a
nullable upper limit (null meaning "no cap") and a nullable rate.  The
engine consists of:

* `sanitize_brackets` — normalizes raw rows: rates above 1 are read as
  percentages and divided by 100, rows are sorted by cap with null caps
  last, and a terminal open-ended row is appended when none is present;
* `apply_progressive` — walks the sanitized schedule accumulating
  slab-by-slab tax with early exit once the amount is consumed;
* the India surcharge/cess composition and the US overlay layer
  (earned-income exclusion, standard deduction, foreign-tax-credit cap).

Monetary values are modeled as rationals.
-/

namespace ExpatTax

/-- A raw user-editable bracket row: nullable cap, nullable rate. -/
structure RawRow where
  upper_limit : Option ℚ
  rate : Option ℚ
deriving Repr, DecidableEq

/-- A sanitized bracket entry: nullable cap, concrete rate. -/
structure Entry where
  cap : Option ℚ
  rate : ℚ
deriving Repr, DecidableEq

/-- Rate convention of `sanitize_brackets`: a missing rate becomes 0, a rate
above 1 is interpreted as a percentage and divided by 100, any other value
(including 0 and negatives) passes through. -/
def rateNorm : Option ℚ → ℚ
  | none => 0
  | some v => if 1 < v then v / 100 else v

/-- Sort key used by `sanitize_brackets`: a null cap sorts as plus infinity. -/
def capKey : Option ℚ → WithTop ℚ
  | none => ⊤
  | some q => (q : WithTop ℚ)

/-- Comparison on entries by cap, null caps last. -/
def entLE (a b : Entry) : Prop := capKey a.cap ≤ capKey b.cap

instance : DecidableRel entLE := fun a b =>
  inferInstanceAs (Decidable (capKey a.cap ≤ capKey b.cap))

instance : IsTotal Entry entLE := ⟨fun a b => le_total (capKey a.cap) (capKey b.cap)⟩

instance : IsTrans Entry entLE := ⟨fun _ _ _ hab hbc => le_trans hab hbc⟩

/-- Rate of the last row of a sanitized table (0 for an empty table). -/
def lastRate (l : List Entry) : ℚ := (l.getLast?).elim 0 Entry.rate

/-- Embedding of `sanitize_brackets`: empty input becomes a single open-ended
0% row; otherwise rates are normalized, rows are sorted by cap (null last,
stable), and if no row has a null cap a terminal row with the last row's rate
is appended. -/
def sanitize_brackets (rows : List RawRow) : List Entry :=
  match rows with
  | [] => [⟨none, 0⟩]
  | _ :: _ =>
    let out := (rows.map fun r => (⟨r.upper_limit, rateNorm r.rate⟩ : Entry)).insertionSort entLE
    if out.countP (fun e => e.cap.isNone) = 0 then out ++ [⟨none, lastRate out⟩] else out

/-- One row of the slab breakdown emitted by `apply_progressive`.
`To = none` corresponds to the "∞" marker in the source. -/
structure Slab where
  From : ℚ
  To : Option ℚ
  Rate : ℚ
  Amount : ℚ
  Tax : ℚ
deriving Repr, DecidableEq

/-- Amount allotted to one slab: all of the remainder for an open-ended cap,
otherwise the remainder clipped to the slab width, floored at 0. -/
def slabAmt (cap : Option ℚ) (rem prev : ℚ) : ℚ :=
  match cap with
  | none => max 0 rem
  | some c => max 0 (min rem (c - prev))

/-- The slab loop of `apply_progressive`: accumulates tax and breakdown rows,
emits a row only when the slab amount is positive, advances the previous cap,
and stops once the remainder is exhausted. -/
def applyGo : List Entry → ℚ → ℚ → ℚ × List Slab
  | [], _, _ => (0, [])
  | e :: es, rem, prev =>
    let amt := slabAmt e.cap rem prev
    let stax := amt * e.rate
    let rows0 : List Slab := if 0 < amt then [⟨prev, e.cap, e.rate, amt, stax⟩] else []
    let prev2 := e.cap.getD prev
    if rem - amt ≤ 0 then (stax, rows0)
    else
      let rest := applyGo es (rem - amt) prev2
      (stax + rest.1, rows0 ++ rest.2)

/-- Embedding of `apply_progressive`: non-positive amounts short-circuit to
`(0, [])`; otherwise the raw rows are sanitized and the slab loop runs. -/
def apply_progressive (rows : List RawRow) (amount : ℚ) : ℚ × List Slab :=
  if amount ≤ 0 then (0, []) else applyGo (sanitize_brackets rows) amount 0

/-! ### Basic slab-amount facts -/

lemma slabAmt_nonneg (c : Option ℚ) (rem prev : ℚ) : 0 ≤ slabAmt c rem prev := by
  cases c <;> simp [slabAmt]

lemma slabAmt_le (c : Option ℚ) (prev : ℚ) {rem : ℚ} (h : 0 ≤ rem) :
    slabAmt c rem prev ≤ rem := by
  cases c <;> simp only [slabAmt, max_def, min_def] <;> split_ifs <;> linarith

lemma slabAmt_mono (c : Option ℚ) (prev : ℚ) {r1 r2 : ℚ} (h : r1 ≤ r2) :
    slabAmt c r1 prev ≤ slabAmt c r2 prev := by
  cases c <;> simp only [slabAmt, max_def, min_def] <;> split_ifs <;> linarith

lemma sub_slabAmt_mono (c : Option ℚ) (prev : ℚ) {r1 r2 : ℚ} (h : r1 ≤ r2) :
    r1 - slabAmt c r1 prev ≤ r2 - slabAmt c r2 prev := by
  cases c <;> simp only [slabAmt, max_def, min_def] <;> split_ifs <;> linarith

lemma slabAmt_eq_of_break {c : Option ℚ} {prev rem : ℚ} (hrem : 0 < rem)
    (hb : rem - slabAmt c rem prev ≤ 0) : slabAmt c rem prev = rem :=
  le_antisymm (slabAmt_le c prev hrem.le) (by linarith)

lemma slabAmt_eq_max_of_lt {c prev rem : ℚ} (h : slabAmt (some c) rem prev < rem) :
    slabAmt (some c) rem prev = max 0 (c - prev) := by
  simp only [slabAmt, max_def, min_def] at h ⊢
  split_ifs at h ⊢ <;> linarith

/-- Unfolding equation for the slab loop on a nonempty schedule. -/
lemma applyGo_cons (e : Entry) (es : List Entry) (rem prev : ℚ) :
    applyGo (e :: es) rem prev =
      if rem - slabAmt e.cap rem prev ≤ 0 then
        (slabAmt e.cap rem prev * e.rate,
         if 0 < slabAmt e.cap rem prev then
           [⟨prev, e.cap, e.rate, slabAmt e.cap rem prev, slabAmt e.cap rem prev * e.rate⟩]
         else [])
      else
        (slabAmt e.cap rem prev * e.rate +
          (applyGo es (rem - slabAmt e.cap rem prev) (e.cap.getD prev)).1,
         (if 0 < slabAmt e.cap rem prev then
           [⟨prev, e.cap, e.rate, slabAmt e.cap rem prev, slabAmt e.cap rem prev * e.rate⟩]
          else []) ++ (applyGo es (rem - slabAmt e.cap rem prev) (e.cap.getD prev)).2) := rfl

/-- Tax component of the slab loop on a nonempty schedule. -/
lemma applyGo_fst_cons (e : Entry) (es : List Entry) (rem prev : ℚ) :
    (applyGo (e :: es) rem prev).1 =
      if rem - slabAmt e.cap rem prev ≤ 0 then slabAmt e.cap rem prev * e.rate
      else slabAmt e.cap rem prev * e.rate +
        (applyGo es (rem - slabAmt e.cap rem prev) (e.cap.getD prev)).1 := by
  rw [applyGo_cons]
  by_cases hb : rem - slabAmt e.cap rem prev ≤ 0 <;> simp [hb]

/-- Breakdown component of the slab loop on a nonempty schedule. -/
lemma applyGo_snd_cons (e : Entry) (es : List Entry) (rem prev : ℚ) :
    (applyGo (e :: es) rem prev).2 =
      (if 0 < slabAmt e.cap rem prev then
        [⟨prev, e.cap, e.rate, slabAmt e.cap rem prev, slabAmt e.cap rem prev * e.rate⟩]
       else []) ++
      (if rem - slabAmt e.cap rem prev ≤ 0 then []
       else (applyGo es (rem - slabAmt e.cap rem prev) (e.cap.getD prev)).2) := by
  rw [applyGo_cons]
  by_cases hb : rem - slabAmt e.cap rem prev ≤ 0 <;> simp [hb]

/-! ### Tax loop: nonnegativity and monotonicity -/

lemma applyGo_tax_nonneg : ∀ (es : List Entry), (∀ e ∈ es, 0 ≤ e.rate) →
    ∀ rem prev, 0 ≤ (applyGo es rem prev).1 := by
  intro es
  induction es with
  | nil => intro _ rem prev; simp [applyGo]
  | cons e es ih =>
    intro h rem prev
    have hr : 0 ≤ e.rate := h e (by simp)
    have ht : ∀ x ∈ es, 0 ≤ x.rate := fun x hx => h x (by simp [hx])
    rw [applyGo_fst_cons]
    split_ifs with hb
    · exact mul_nonneg (slabAmt_nonneg _ _ _) hr
    · exact add_nonneg (mul_nonneg (slabAmt_nonneg _ _ _) hr) (ih ht _ _)

lemma applyGo_tax_mono : ∀ (es : List Entry), (∀ e ∈ es, 0 ≤ e.rate) →
    ∀ (prev : ℚ) {r1 r2 : ℚ}, 0 < r1 → r1 ≤ r2 →
    (applyGo es r1 prev).1 ≤ (applyGo es r2 prev).1 := by
  intro es
  induction es with
  | nil => intro _ prev r1 r2 _ _; simp [applyGo]
  | cons e es ih =>
    intro h prev r1 r2 h1 h12
    have hr : 0 ≤ e.rate := h e (by simp)
    have ht : ∀ x ∈ es, 0 ≤ x.rate := fun x hx => h x (by simp [hx])
    have hamt : slabAmt e.cap r1 prev ≤ slabAmt e.cap r2 prev := slabAmt_mono _ _ h12
    have hsub : r1 - slabAmt e.cap r1 prev ≤ r2 - slabAmt e.cap r2 prev :=
      sub_slabAmt_mono _ _ h12
    rw [applyGo_fst_cons, applyGo_fst_cons]
    split_ifs with hb1 hb2 hb2
    · exact mul_le_mul_of_nonneg_right hamt hr
    · have htail : 0 ≤ (applyGo es (r2 - slabAmt e.cap r2 prev) (e.cap.getD prev)).1 :=
        applyGo_tax_nonneg es ht _ _
      have hmul := mul_le_mul_of_nonneg_right hamt hr
      linarith
    · exact absurd (hsub.trans hb2) hb1
    · have htail := ih ht (e.cap.getD prev) (not_le.mp hb1) hsub
      have hmul := mul_le_mul_of_nonneg_right hamt hr
      linarith

/-! ### Tax loop: lower bound, increment bound, average-rate monotonicity -/

lemma applyGo_tax_lower (ρ : ℚ) : ∀ (es : List Entry), (∀ e ∈ es, ρ ≤ e.rate) →
    none ∈ es.map Entry.cap → ∀ (prev : ℚ) {m : ℚ}, 0 < m →
    m * ρ ≤ (applyGo es m prev).1 := by
  intro es
  induction es with
  | nil => intro _ hc; simp at hc
  | cons e es ih =>
    intro h hc prev m hm
    have hr : ρ ≤ e.rate := h e (by simp)
    have ht : ∀ x ∈ es, ρ ≤ x.rate := fun x hx => h x (by simp [hx])
    rw [applyGo_fst_cons]
    split_ifs with hb
    · rw [slabAmt_eq_of_break hm hb]
      exact mul_le_mul_of_nonneg_left hr hm.le
    · have hcapne : e.cap ≠ none := by
        intro hcap
        apply hb
        rw [hcap]
        simp [slabAmt, max_eq_right hm.le]
      have hc' : none ∈ es.map Entry.cap := by
        simp only [List.map_cons, List.mem_cons] at hc
        rcases hc with h0 | h0
        · exact absurd h0.symm hcapne
        · exact h0
      have hm' : 0 < m - slabAmt e.cap m prev := not_le.mp hb
      have hIH := ih ht hc' (e.cap.getD prev) hm'
      have hamt0 : 0 ≤ slabAmt e.cap m prev := slabAmt_nonneg _ _ _
      have h3 : slabAmt e.cap m prev * ρ ≤ slabAmt e.cap m prev * e.rate :=
        mul_le_mul_of_nonneg_left hr hamt0
      have h4 : m * ρ = slabAmt e.cap m prev * ρ + (m - slabAmt e.cap m prev) * ρ := by
        ring
      linarith

lemma applyGo_tax_incr (ρ : ℚ) : ∀ (es : List Entry), (∀ e ∈ es, ρ ≤ e.rate) →
    none ∈ es.map Entry.cap → ∀ (prev : ℚ) {m1 m2 : ℚ}, 0 < m1 → m1 ≤ m2 →
    ρ * (m2 - m1) ≤ (applyGo es m2 prev).1 - (applyGo es m1 prev).1 := by
  intro es
  induction es with
  | nil => intro _ hc; simp at hc
  | cons e es ih =>
    intro h hc prev m1 m2 hm1 h12
    have hm2 : 0 < m2 := lt_of_lt_of_le hm1 h12
    have hr : ρ ≤ e.rate := h e (by simp)
    have ht : ∀ x ∈ es, ρ ≤ x.rate := fun x hx => h x (by simp [hx])
    have hamt : slabAmt e.cap m1 prev ≤ slabAmt e.cap m2 prev := slabAmt_mono _ _ h12
    have hsub : m1 - slabAmt e.cap m1 prev ≤ m2 - slabAmt e.cap m2 prev :=
      sub_slabAmt_mono _ _ h12
    rw [applyGo_fst_cons, applyGo_fst_cons]
    split_ifs with hb2 hb1 hb1
    · rw [slabAmt_eq_of_break hm1 hb1, slabAmt_eq_of_break hm2 hb2]
      have hmul := mul_le_mul_of_nonneg_right hr (sub_nonneg.mpr h12)
      have hring : e.rate * (m2 - m1) = m2 * e.rate - m1 * e.rate := by ring
      linarith
    · exact absurd (hsub.trans hb2) hb1
    · have heq := slabAmt_eq_of_break hm1 hb1
      rw [heq]
      have hcapne : e.cap ≠ none := by
        intro hcap
        apply hb2
        rw [hcap]
        simp [slabAmt, max_eq_right hm2.le]
      have hc' : none ∈ es.map Entry.cap := by
        simp only [List.map_cons, List.mem_cons] at hc
        rcases hc with h0 | h0
        · exact absurd h0.symm hcapne
        · exact h0
      have hm2' : 0 < m2 - slabAmt e.cap m2 prev := not_le.mp hb2
      have hL1 := applyGo_tax_lower ρ es ht hc' (e.cap.getD prev) hm2'
      have h5 : 0 ≤ slabAmt e.cap m2 prev - m1 := by linarith
      have h6 : (slabAmt e.cap m2 prev - m1) * ρ ≤ (slabAmt e.cap m2 prev - m1) * e.rate :=
        mul_le_mul_of_nonneg_left hr h5
      have hring : ρ * (m2 - m1) =
          (m2 - slabAmt e.cap m2 prev) * ρ + (slabAmt e.cap m2 prev - m1) * ρ := by ring
      have hring2 : (slabAmt e.cap m2 prev - m1) * e.rate
          = slabAmt e.cap m2 prev * e.rate - m1 * e.rate := by ring
      linarith
    · have hcapne : e.cap ≠ none := by
        intro hcap
        apply hb1
        rw [hcap]
        simp [slabAmt, max_eq_right hm1.le]
      have hc' : none ∈ es.map Entry.cap := by
        simp only [List.map_cons, List.mem_cons] at hc
        rcases hc with h0 | h0
        · exact absurd h0.symm hcapne
        · exact h0
      obtain ⟨c, hcap⟩ := Option.ne_none_iff_exists'.mp hcapne
      rw [hcap] at hb1 hb2 ⊢
      have h01 := not_le.mp hb1
      have h02 := not_le.mp hb2
      have he1 := slabAmt_eq_max_of_lt (show slabAmt (some c) m1 prev < m1 by linarith)
      have he2 := slabAmt_eq_max_of_lt (show slabAmt (some c) m2 prev < m2 by linarith)
      rw [he1] at h01 ⊢
      rw [he2] at h02 ⊢
      have hIH := ih ht hc' ((some c).getD prev) h01
        (by linarith : m1 - max 0 (c - prev) ≤ m2 - max 0 (c - prev))
      have hring : ρ * ((m2 - max 0 (c - prev)) - (m1 - max 0 (c - prev)))
          = ρ * (m2 - m1) := by ring
      linarith

lemma applyGo_avg_mono : ∀ (es : List Entry), es.Pairwise (fun a b => a.rate ≤ b.rate) →
    none ∈ es.map Entry.cap → ∀ (prev : ℚ) {a1 a2 : ℚ}, 0 < a1 → a1 ≤ a2 →
    (applyGo es a1 prev).1 * a2 ≤ (applyGo es a2 prev).1 * a1 := by
  intro es
  induction es with
  | nil => intro _ hc; simp at hc
  | cons e es ih =>
    intro hp hc prev a1 a2 h1 h12
    have h2 : 0 < a2 := lt_of_lt_of_le h1 h12
    obtain ⟨hhead, htail⟩ := List.pairwise_cons.mp hp
    have hamt : slabAmt e.cap a1 prev ≤ slabAmt e.cap a2 prev := slabAmt_mono _ _ h12
    have hsub : a1 - slabAmt e.cap a1 prev ≤ a2 - slabAmt e.cap a2 prev :=
      sub_slabAmt_mono _ _ h12
    rw [applyGo_fst_cons, applyGo_fst_cons]
    split_ifs with hb1 hb2 hb2
    · rw [slabAmt_eq_of_break h1 hb1, slabAmt_eq_of_break h2 hb2]
      exact le_of_eq (by ring)
    · rw [slabAmt_eq_of_break h1 hb1]
      have hcapne : e.cap ≠ none := by
        intro hcap
        apply hb2
        rw [hcap]
        simp [slabAmt, max_eq_right h2.le]
      have hc' : none ∈ es.map Entry.cap := by
        simp only [List.map_cons, List.mem_cons] at hc
        rcases hc with h0 | h0
        · exact absurd h0.symm hcapne
        · exact h0
      have hm2' : 0 < a2 - slabAmt e.cap a2 prev := not_le.mp hb2
      have hL1 := applyGo_tax_lower e.rate es hhead hc' (e.cap.getD prev) hm2'
      calc a1 * e.rate * a2 = a2 * e.rate * a1 := by ring
        _ ≤ (slabAmt e.cap a2 prev * e.rate +
              (applyGo es (a2 - slabAmt e.cap a2 prev) (e.cap.getD prev)).1) * a1 := by
            apply mul_le_mul_of_nonneg_right _ h1.le
            have hring : (a2 - slabAmt e.cap a2 prev) * e.rate
                = a2 * e.rate - slabAmt e.cap a2 prev * e.rate := by ring
            linarith
    · exact absurd (hsub.trans hb2) hb1
    · have hcapne : e.cap ≠ none := by
        intro hcap
        apply hb1
        rw [hcap]
        simp [slabAmt, max_eq_right h1.le]
      have hc' : none ∈ es.map Entry.cap := by
        simp only [List.map_cons, List.mem_cons] at hc
        rcases hc with h0 | h0
        · exact absurd h0.symm hcapne
        · exact h0
      obtain ⟨c, hcap⟩ := Option.ne_none_iff_exists'.mp hcapne
      rw [hcap] at hb1 hb2 ⊢
      have h01 := not_le.mp hb1
      have h02 := not_le.mp hb2
      have he1 := slabAmt_eq_max_of_lt (show slabAmt (some c) a1 prev < a1 by linarith)
      have he2 := slabAmt_eq_max_of_lt (show slabAmt (some c) a2 prev < a2 by linarith)
      rw [he1] at h01 ⊢
      rw [he2] at h02 ⊢
      have hu0 : (0:ℚ) ≤ max 0 (c - prev) := le_max_left _ _
      have hIH := ih htail hc' ((some c).getD prev) h01
        (by linarith : a1 - max 0 (c - prev) ≤ a2 - max 0 (c - prev))
      have hL2 := applyGo_tax_incr e.rate es hhead hc' ((some c).getD prev) h01
        (by linarith : a1 - max 0 (c - prev) ≤ a2 - max 0 (c - prev))
      have hL2u := mul_le_mul_of_nonneg_left hL2 hu0
      nlinarith [hIH, hL2u]

/-! ### Slab breakdown: amounts and taxes sum up -/

lemma applyGo_amt_sum : ∀ (es : List Entry), none ∈ es.map Entry.cap →
    ∀ (prev : ℚ) {rem : ℚ}, 0 < rem →
    ((applyGo es rem prev).2.map Slab.Amount).sum = rem := by
  intro es
  induction es with
  | nil => intro hc; simp at hc
  | cons e es ih =>
    intro hc prev rem hrem
    rw [applyGo_snd_cons]
    split_ifs with hpos hb hb
    · simp [slabAmt_eq_of_break hrem hb]
    · have hcapne : e.cap ≠ none := by
        intro hcap
        apply hb
        rw [hcap]
        simp [slabAmt, max_eq_right hrem.le]
      have hc' : none ∈ es.map Entry.cap := by
        simp only [List.map_cons, List.mem_cons] at hc
        rcases hc with h0 | h0
        · exact absurd h0.symm hcapne
        · exact h0
      have htl := ih hc' (e.cap.getD prev) (not_le.mp hb)
      simp only [List.map_append, List.map_cons, List.map_nil, List.sum_append,
        List.sum_cons, List.sum_nil, htl]
      ring
    · exfalso
      have h1 := slabAmt_eq_of_break hrem hb
      have h2 := not_lt.mp hpos
      linarith
    · have hcapne : e.cap ≠ none := by
        intro hcap
        apply hb
        rw [hcap]
        simp [slabAmt, max_eq_right hrem.le]
      have hc' : none ∈ es.map Entry.cap := by
        simp only [List.map_cons, List.mem_cons] at hc
        rcases hc with h0 | h0
        · exact absurd h0.symm hcapne
        · exact h0
      have htl := ih hc' (e.cap.getD prev) (not_le.mp hb)
      have h0 : slabAmt e.cap rem prev = 0 :=
        le_antisymm (not_lt.mp hpos) (slabAmt_nonneg _ _ _)
      rw [h0, sub_zero] at htl ⊢
      simpa using htl

lemma applyGo_tax_sum : ∀ (es : List Entry) (rem prev : ℚ),
    (applyGo es rem prev).1 = ((applyGo es rem prev).2.map Slab.Tax).sum := by
  intro es
  induction es with
  | nil => intro rem prev; simp [applyGo]
  | cons e es ih =>
    intro rem prev
    rw [applyGo_fst_cons, applyGo_snd_cons]
    split_ifs with hb hpos hpos
    · simp
    · have h0 : slabAmt e.cap rem prev = 0 :=
        le_antisymm (not_lt.mp hpos) (slabAmt_nonneg _ _ _)
      simp [h0]
    · simp only [List.map_append, List.map_cons, List.map_nil, List.sum_append,
        List.sum_cons, List.sum_nil, ih]
      ring
    · have h0 : slabAmt e.cap rem prev = 0 :=
        le_antisymm (not_lt.mp hpos) (slabAmt_nonneg _ _ _)
      simp [h0, ih]

/-! ### Structure of sanitized schedules -/

lemma insertionSort_ne_nil {l : List Entry} (h : l ≠ []) : l.insertionSort entLE ≠ [] := by
  intro hnil
  have hperm := List.perm_insertionSort entLE l
  rw [hnil] at hperm
  exact h hperm.symm.eq_nil

lemma pairwise_rel_getLast {α : Type*} {R : α → α → Prop} :
    ∀ (l : List α) (hl : l ≠ []), l.Pairwise R →
      ∀ x ∈ l, x = l.getLast hl ∨ R x (l.getLast hl) := by
  intro l
  induction l with
  | nil => intro hl; exact absurd rfl hl
  | cons a t ih =>
    intro hl hp x hx
    cases t with
    | nil =>
      left
      have hxa : x = a := by simpa using hx
      simp [hxa]
    | cons b t2 =>
      have hne : b :: t2 ≠ [] := by simp
      have hlast : (a :: b :: t2).getLast hl = (b :: t2).getLast hne := List.getLast_cons hne
      rcases List.mem_cons.mp hx with rfl | hx2
      · right
        rw [hlast]
        exact (List.pairwise_cons.mp hp).1 _ (List.getLast_mem hne)
      · rw [hlast]
        exact ih hne (List.pairwise_cons.mp hp).2 x hx2

lemma lastRate_eq_getLast {l : List Entry} (hl : l ≠ []) :
    lastRate l = (l.getLast hl).rate := by
  simp [lastRate, List.getLast?_eq_getLast l hl]

lemma rate_le_lastRate {l : List Entry} (hl : l ≠ [])
    (hp : l.Pairwise (fun a b => a.rate ≤ b.rate)) : ∀ x ∈ l, x.rate ≤ lastRate l := by
  intro x hx
  rw [lastRate_eq_getLast hl]
  rcases pairwise_rel_getLast l hl hp x hx with h | h
  · rw [h]
  · exact h

lemma cap_getLast_none {l : List Entry} (hl : l ≠ []) (hp : l.Pairwise entLE)
    (e : Entry) (he : e ∈ l) (hce : e.cap = none) : (l.getLast hl).cap = none := by
  rcases pairwise_rel_getLast l hl hp e he with h | h
  · rw [← h, hce]
  · have htop : (⊤ : WithTop ℚ) ≤ capKey (l.getLast hl).cap := by
      simpa only [entLE, hce, capKey] using h
    cases hcl : (l.getLast hl).cap with
    | none => rfl
    | some q =>
      exfalso
      rw [hcl] at htop
      simp only [capKey] at htop
      exact WithTop.coe_ne_top (top_le_iff.mp htop)

lemma sanitize_ne_nil (rows : List RawRow) : sanitize_brackets rows ≠ [] := by
  cases rows with
  | nil => simp [sanitize_brackets]
  | cons r rs =>
    simp only [sanitize_brackets]
    split_ifs with h
    · simp
    · exact insertionSort_ne_nil (by simp)

lemma sanitize_sorted (rows : List RawRow) : (sanitize_brackets rows).Pairwise entLE := by
  cases rows with
  | nil => simp [sanitize_brackets]
  | cons r rs =>
    simp only [sanitize_brackets]
    split_ifs with h
    · rw [List.pairwise_append]
      refine ⟨List.sorted_insertionSort entLE _, by simp, ?_⟩
      intro a _ b hb
      have hbe : b = (⟨none, lastRate (((r :: rs).map fun r =>
          (⟨r.upper_limit, rateNorm r.rate⟩ : Entry)).insertionSort entLE)⟩ : Entry) := by
        simpa using hb
      rw [hbe]
      simp [entLE, capKey]
    · exact List.sorted_insertionSort entLE _

lemma sanitize_getLast_cap (rows : List RawRow) :
    ∃ e, (sanitize_brackets rows).getLast? = some e ∧ e.cap = none := by
  cases rows with
  | nil => exact ⟨⟨none, 0⟩, by simp [sanitize_brackets], rfl⟩
  | cons r rs =>
    simp only [sanitize_brackets]
    split_ifs with h
    · exact ⟨⟨none, lastRate _⟩, List.getLast?_concat _, rfl⟩
    · have hne : (((r :: rs).map fun r =>
          (⟨r.upper_limit, rateNorm r.rate⟩ : Entry)).insertionSort entLE) ≠ [] :=
        insertionSort_ne_nil (by simp)
      have hcp : 0 < (((r :: rs).map fun r =>
          (⟨r.upper_limit, rateNorm r.rate⟩ : Entry)).insertionSort entLE).countP
          (fun e => e.cap.isNone) := Nat.pos_of_ne_zero h
      obtain ⟨e, he, hpe⟩ := List.countP_pos_iff.mp hcp
      have hce : e.cap = none := Option.isNone_iff_eq_none.mp hpe
      have hsorted := List.sorted_insertionSort entLE ((r :: rs).map fun r =>
        (⟨r.upper_limit, rateNorm r.rate⟩ : Entry))
      exact ⟨_, List.getLast?_eq_getLast _ hne, cap_getLast_none hne hsorted e he hce⟩

lemma sanitize_cap_none_mem (rows : List RawRow) :
    none ∈ (sanitize_brackets rows).map Entry.cap := by
  obtain ⟨e, he, hce⟩ := sanitize_getLast_cap rows
  have hmem : e ∈ sanitize_brackets rows := by
    have h1 := List.getLast_mem (sanitize_ne_nil rows)
    have h2 : (sanitize_brackets rows).getLast (sanitize_ne_nil rows) = e := by
      rw [List.getLast?_eq_getLast _ (sanitize_ne_nil rows)] at he
      exact Option.some_inj.mp he
    rwa [h2] at h1
  exact List.mem_map.mpr ⟨e, hmem, hce⟩

lemma sanitize_countP (rows : List RawRow) :
    (sanitize_brackets rows).countP (fun e => e.cap.isNone) =
      max 1 (rows.countP (fun r => r.upper_limit.isNone)) := by
  cases rows with
  | nil => simp [sanitize_brackets]
  | cons r rs =>
    have hmap : ((r :: rs).map fun r => (⟨r.upper_limit, rateNorm r.rate⟩ : Entry)).countP
        (fun e => e.cap.isNone) = (r :: rs).countP (fun r => r.upper_limit.isNone) := by
      rw [List.countP_map]
      rfl
    have hperm := (List.perm_insertionSort entLE
      ((r :: rs).map fun r => (⟨r.upper_limit, rateNorm r.rate⟩ : Entry))).countP_eq
      (fun e => e.cap.isNone)
    simp only [sanitize_brackets]
    split_ifs with h
    · have hraw : (r :: rs).countP (fun r => r.upper_limit.isNone) = 0 := by
        rw [← hmap, ← hperm]
        exact h
      rw [List.countP_append, h, hraw]
      simp
    · have hpos : (r :: rs).countP (fun r => r.upper_limit.isNone) ≠ 0 := by
        rw [← hmap, ← hperm]
        exact h
      rw [hperm, hmap]
      exact (Nat.max_eq_right (Nat.one_le_iff_ne_zero.mpr hpos)).symm

lemma sanitize_rate_mem (rows : List RawRow) :
    ∀ e ∈ sanitize_brackets rows, e.rate = 0 ∨ ∃ r ∈ rows, e.rate = rateNorm r.rate := by
  cases rows with
  | nil =>
    intro e he
    simp only [sanitize_brackets, List.mem_singleton] at he
    subst he
    left
    rfl
  | cons r rs =>
    intro e he
    simp only [sanitize_brackets] at he
    split_ifs at he with h
    · rcases List.mem_append.mp he with h1 | h1
      · have h2 := (List.perm_insertionSort entLE _).mem_iff.mp h1
        obtain ⟨rr, hrr, hre⟩ := List.mem_map.mp h2
        right
        exact ⟨rr, hrr, by rw [← hre]⟩
      · have h2 : e = (⟨none, lastRate (((r :: rs).map fun r =>
            (⟨r.upper_limit, rateNorm r.rate⟩ : Entry)).insertionSort entLE)⟩ : Entry) := by
          simpa using h1
        have hne : (((r :: rs).map fun r =>
            (⟨r.upper_limit, rateNorm r.rate⟩ : Entry)).insertionSort entLE) ≠ [] :=
          insertionSort_ne_nil (by simp)
        have hmem := List.getLast_mem hne
        have h3 := (List.perm_insertionSort entLE _).mem_iff.mp hmem
        obtain ⟨rr, hrr, hre⟩ := List.mem_map.mp h3
        right
        refine ⟨rr, hrr, ?_⟩
        rw [h2]
        show lastRate _ = rateNorm rr.rate
        rw [lastRate_eq_getLast hne, ← hre]
    · have h2 := (List.perm_insertionSort entLE _).mem_iff.mp he
      obtain ⟨rr, hrr, hre⟩ := List.mem_map.mp h2
      right
      exact ⟨rr, hrr, by rw [← hre]⟩

/-! ### Rate normalization bounds -/

lemma rateNorm_nonneg {o : Option ℚ} (h : 0 ≤ o.getD 0) : 0 ≤ rateNorm o := by
  cases o with
  | none => simp [rateNorm]
  | some v =>
    simp only [Option.getD_some] at h
    simp only [rateNorm]
    split_ifs with h1
    · linarith
    · exact h

lemma rateNorm_le_one {o : Option ℚ} (h : o.getD 0 ≤ 100) : rateNorm o ≤ 1 := by
  cases o with
  | none => simp [rateNorm]
  | some v =>
    simp only [Option.getD_some] at h
    simp only [rateNorm]
    split_ifs with h1
    · linarith
    · exact not_lt.mp h1

lemma rateNorm_eq_getD {o : Option ℚ} (h : o.getD 0 ≤ 1) : rateNorm o = o.getD 0 := by
  cases o with
  | none => simp [rateNorm]
  | some v =>
    simp only [Option.getD_some] at h ⊢
    simp only [rateNorm]
    rw [if_neg (not_lt.mpr h)]

lemma sanitize_rate_nonneg {rows : List RawRow} (h : ∀ r ∈ rows, 0 ≤ r.rate.getD 0) :
    ∀ e ∈ sanitize_brackets rows, 0 ≤ e.rate := by
  intro e he
  rcases sanitize_rate_mem rows e he with h0 | ⟨r, hr, heq⟩
  · exact h0.symm.le
  · rw [heq]
    exact rateNorm_nonneg (h r hr)

lemma sanitize_rate_le_one {rows : List RawRow} (h : ∀ r ∈ rows, r.rate.getD 0 ≤ 100) :
    ∀ e ∈ sanitize_brackets rows, e.rate ≤ 1 := by
  intro e he
  rcases sanitize_rate_mem rows e he with h0 | ⟨r, hr, heq⟩
  · rw [h0]
    norm_num
  · rw [heq]
    exact rateNorm_le_one (h r hr)

lemma sanitize_pairwise_rate {rows : List RawRow}
    (hcap : rows.Pairwise (fun r s => capKey r.upper_limit ≤ capKey s.upper_limit))
    (hle : ∀ r ∈ rows, r.rate.getD 0 ≤ 1)
    (hrate : rows.Pairwise (fun r s => r.rate.getD 0 ≤ s.rate.getD 0)) :
    (sanitize_brackets rows).Pairwise (fun a b => a.rate ≤ b.rate) := by
  rcases rows with _ | ⟨r, rs⟩
  · simp [sanitize_brackets]
  · have hmapeq : ((r :: rs).map fun r => (⟨r.upper_limit, rateNorm r.rate⟩ : Entry))
        = (r :: rs).map fun x => (⟨x.upper_limit, x.rate.getD 0⟩ : Entry) :=
      List.map_congr_left fun x hx => by rw [rateNorm_eq_getD (hle x hx)]
    have hsorted : ((r :: rs).map fun r =>
        (⟨r.upper_limit, rateNorm r.rate⟩ : Entry)).Pairwise entLE := by
      rw [hmapeq]
      exact List.pairwise_map.mpr (hcap.imp fun hh => hh)
    have hsorteq := List.Sorted.insertionSort_eq hsorted
    have hpr : ((r :: rs).map fun r =>
        (⟨r.upper_limit, rateNorm r.rate⟩ : Entry)).Pairwise (fun a b => a.rate ≤ b.rate) := by
      rw [hmapeq]
      exact List.pairwise_map.mpr (hrate.imp fun hh => hh)
    simp only [sanitize_brackets]
    rw [hsorteq]
    split_ifs with h
    · rw [List.pairwise_append]
      refine ⟨hpr, by simp, ?_⟩
      intro a ha b hb
      have hbe : b = (⟨none, lastRate ((r :: rs).map fun r =>
          (⟨r.upper_limit, rateNorm r.rate⟩ : Entry))⟩ : Entry) := by
        simpa using hb
      rw [hbe]
      exact rate_le_lastRate (by simp) hpr a ha
    · exact hpr

/-! ### Raw-row rendering and re-normalization -/

/-- Raw-row rendering of a sanitized schedule (caps as-is, rates made present). -/
def toRawRows (l : List Entry) : List RawRow := l.map fun e => ⟨e.cap, some e.rate⟩

lemma sanitize_eq_of (l : List Entry) (hne : l ≠ []) (hsorted : l.Pairwise entLE)
    (hle : ∀ e ∈ l, e.rate ≤ 1) (hcount : l.countP (fun e => e.cap.isNone) ≠ 0) :
    sanitize_brackets (toRawRows l) = l := by
  obtain ⟨s0, S, rfl⟩ := List.exists_cons_of_ne_nil hne
  have h1 : toRawRows (s0 :: S) = ⟨s0.cap, some s0.rate⟩ :: toRawRows S := rfl
  have h2 : ((⟨s0.cap, some s0.rate⟩ : RawRow) :: toRawRows S).map
      (fun r => (⟨r.upper_limit, rateNorm r.rate⟩ : Entry)) = s0 :: S := by
    rw [← h1, toRawRows, List.map_map]
    conv_rhs => rw [← List.map_id (s0 :: S)]
    refine List.map_congr_left fun e hel => ?_
    have hr1 : e.rate ≤ 1 := hle _ hel
    show (⟨e.cap, rateNorm (some e.rate)⟩ : Entry) = e
    rw [rateNorm_eq_getD (by simpa using hr1)]
    cases e
    rfl
  rw [h1]
  simp only [sanitize_brackets]
  rw [h2, List.Sorted.insertionSort_eq hsorted, if_neg hcount]

/-! ### Jurisdiction composition and US overlay -/

/-- India surcharge rate ladder (new regime): strict greater-than comparisons,
highest breakpoint first, first match wins, default 0. -/
def sur_rate (ti : ℚ) : ℚ :=
  if 20000000 < ti then 0.25
  else if 10000000 < ti then 0.15
  else if 5000000 < ti then 0.10
  else 0

/-- India local tax: progressive base tax, surcharge on the whole base tax,
then a 4% health-and-education cess on tax plus surcharge. -/
def india_local_tax (brackets : List RawRow) (total_comp : ℚ) : ℚ :=
  let base_tax := (apply_progressive brackets total_comp).1
  let surcharge := base_tax * sur_rate total_comp
  let cess := 0.04 * (base_tax + surcharge)
  base_tax + surcharge + cess

/-- Result of the US overlay computation. -/
structure OverlayOut where
  us_taxable : ℚ
  us_tax : ℚ
  ftc : ℚ
  us_due : ℚ
  combined_tax : ℚ
  combined_net : ℚ
deriving Repr, DecidableEq

/-- The US overlay layer: exclusion and standard deduction come off the
combined earned-plus-RSU USD figure, the foreign tax credit is capped by the
US tentative tax, and the residual US tax stacks on the local tax. -/
def overlay_calc (us_brackets : List RawRow)
    (earned_usd rsu_usd local_tax_usd feie std_ded : ℚ) : OverlayOut :=
  let us_taxable := max ((earned_usd + rsu_usd) - feie - std_ded) 0
  let us_tax := (apply_progressive us_brackets us_taxable).1
  let ftc := min local_tax_usd us_tax
  let us_due := max (us_tax - ftc) 0
  let combined_tax := local_tax_usd + us_due
  let combined_net := (earned_usd + rsu_usd) - combined_tax
  ⟨us_taxable, us_tax, ftc, us_due, combined_tax, combined_net⟩

/-- Overlay entrypoint with the FX guard: a non-positive FX rate blocks the
computation with the source's error message; otherwise local-currency figures
are converted at the FX rate and the overlay runs. -/
def compute_overlay (fx : ℚ) (us_brackets : List RawRow)
    (earned rsu local_tax feie std_ded : ℚ) : Except String OverlayOut :=
  if fx ≤ 0 then Except.error ("FX must be greater than zero for USD calculations.")
  else Except.ok (overlay_calc us_brackets (earned / fx) (rsu / fx) (local_tax / fx)
    feie std_ded)

/-- Value view of a nullable raw rate (missing means 0). -/
def rateVal (r : RawRow) : ℚ := r.rate.getD 0

/-- A valid bracket schedule in the sense of the specification: all rates lie
in the unit interval and rows are already in ascending cap order (null caps
counting as plus infinity). -/
def validRows (rows : List RawRow) : Prop :=
  (∀ r ∈ rows, 0 ≤ rateVal r ∧ rateVal r ≤ 1) ∧
  rows.Pairwise (fun r s => capKey r.upper_limit ≤ capKey s.upper_limit)

/-! ### Claims -/

/-- Claim C5: for every schedule and every amount at most 0 (including 0),
`apply_progressive` returns tax 0 and an empty slab list. -/
theorem claim5_nonpositive_amount (rows : List RawRow) (a : ℚ) (h : a ≤ 0) :
    apply_progressive rows a = (0, []) := by
  simp [apply_progressive, h]

/-- Claim C5 witness: concrete run at amount 0. -/
theorem claim5_witness : apply_progressive [] 0 = (0, []) :=
  claim5_nonpositive_amount [] 0 le_rfl

/-- Claim C9: for every schedule and amount, the total tax returned by
`apply_progressive` equals the sum of the Tax fields of the emitted slab rows
(rows with zero amount are omitted and contribute zero tax). -/
theorem claim9_tax_eq_slab_sum (rows : List RawRow) (a : ℚ) :
    (apply_progressive rows a).1 = ((apply_progressive rows a).2.map Slab.Tax).sum := by
  by_cases h : a ≤ 0
  · simp [apply_progressive, h]
  · simp only [apply_progressive, if_neg h]
    exact applyGo_tax_sum _ _ _

/-- Claim C2: for every schedule and every amount strictly above 0, the Amount
fields of the slab rows emitted by `apply_progressive` sum exactly to the
amount — the sanitized schedule always ends with an open-ended entry, so no
income is dropped or double-counted. -/
theorem claim2_slab_amounts_sum (rows : List RawRow) (a : ℚ) (ha : 0 < a) :
    ((apply_progressive rows a).2.map Slab.Amount).sum = a := by
  simp only [apply_progressive, if_neg (not_le.mpr ha)]
  exact applyGo_amt_sum _ (sanitize_cap_none_mem rows) 0 ha

/-- Claim C2 witness: concrete run on the empty schedule at amount 5. -/
theorem claim2_witness : ((apply_progressive [] 5).2.map Slab.Amount).sum = 5 :=
  claim2_slab_amounts_sum [] 5 (by norm_num)

/-- Claim C3 (amended): the sanitized schedule always ends with an open-ended
entry, and the number of open-ended entries equals `max 1 k` where `k` is the
number of null-cap input rows — so it is exactly one precisely when the input
has at most one null-cap row, not for every input. -/
theorem claim3_amended (rows : List RawRow) :
    (∃ e, (sanitize_brackets rows).getLast? = some e ∧ e.cap = none) ∧
    (sanitize_brackets rows).countP (fun e => e.cap.isNone) =
      max 1 (rows.countP (fun r => r.upper_limit.isNone)) :=
  ⟨sanitize_getLast_cap rows, sanitize_countP rows⟩

/-- Claim C3 counterexample: an input with two null-cap rows keeps both, so
the sanitized schedule has two open-ended entries, not exactly one. -/
theorem claim3_counterexample :
    (sanitize_brackets [⟨none, some 0⟩, ⟨none, some 0⟩]).countP (fun e => e.cap.isNone) = 2 ∧
    (sanitize_brackets [⟨none, some 0⟩, ⟨none, some 0⟩]).countP (fun e => e.cap.isNone) ≠ 1 := by
  norm_num [sanitize_brackets, rateNorm, List.insertionSort, List.orderedInsert,
    entLE, capKey, List.countP, List.countP.go]

/-- Claim C10: normalization puts no lower bound on rates — a negative rate
passes through unchanged, and a single open-ended row at rate -1/2 makes
`apply_progressive` return a strictly negative tax on amount 100, so the net
(100 minus the tax) strictly exceeds the gross amount. -/
theorem claim10_negative_rate_passthrough :
    sanitize_brackets [⟨none, some (-1/2)⟩] = [⟨none, -1/2⟩] ∧
    (apply_progressive [⟨none, some (-1/2)⟩] 100).1 = -50 ∧
    (apply_progressive [⟨none, some (-1/2)⟩] 100).1 < 0 ∧
    100 < 100 - (apply_progressive [⟨none, some (-1/2)⟩] 100).1 := by
  norm_num [apply_progressive, sanitize_brackets, applyGo, slabAmt, rateNorm, lastRate,
    List.insertionSort, List.orderedInsert, entLE, capKey]

/-- Claim C1 (amended): for every valid schedule (rates in the unit interval,
caps ascending) the total tax is monotonically non-decreasing in the amount;
the average rate tax/a is also non-decreasing provided additionally the
schedule's rates are non-decreasing along the brackets (stated
multiplicatively: tax(a1) * a2 ≤ tax(a2) * a1 for 0 < a1 ≤ a2). -/
theorem claim1_amended (rows : List RawRow) (a1 a2 : ℚ) (hv : validRows rows)
    (h12 : a1 ≤ a2) :
    (apply_progressive rows a1).1 ≤ (apply_progressive rows a2).1 ∧
    (rows.Pairwise (fun r s => rateVal r ≤ rateVal s) → 0 < a1 →
      (apply_progressive rows a1).1 * a2 ≤ (apply_progressive rows a2).1 * a1) := by
  obtain ⟨hrange, hcap⟩ := hv
  have hnn : ∀ e ∈ sanitize_brackets rows, 0 ≤ e.rate :=
    sanitize_rate_nonneg (fun r hr => (hrange r hr).1)
  constructor
  · by_cases h1 : a1 ≤ 0
    · by_cases h2 : a2 ≤ 0
      · simp [apply_progressive, h1, h2]
      · simp only [apply_progressive, if_pos h1, if_neg h2]
        exact applyGo_tax_nonneg _ hnn _ _
    · have h2 : ¬a2 ≤ 0 := fun h => h1 (h12.trans h)
      simp only [apply_progressive, if_neg h1, if_neg h2]
      exact applyGo_tax_mono _ hnn 0 (not_le.mp h1) h12
  · intro hrs ha1
    have hpr : (sanitize_brackets rows).Pairwise (fun a b => a.rate ≤ b.rate) :=
      sanitize_pairwise_rate hcap (fun r hr => (hrange r hr).2) (hrs.imp fun hh => hh)
    simp only [apply_progressive, if_neg (not_le.mpr ha1),
      if_neg (not_le.mpr (lt_of_lt_of_le ha1 h12))]
    exact applyGo_avg_mono _ hpr (sanitize_cap_none_mem rows) 0 ha1 h12

/-- Claim C1 counterexample: the schedule [(100, 1/2), (open-ended, 1/10)] is
valid in the claim's sense (rates in the unit interval, caps ascending), yet
the average rate falls from 1/2 at amount 100 to 3/10 at amount 200, refuting
the progressivity half of the claim as stated. -/
theorem claim1_counterexample :
    validRows [⟨some 100, some (1/2)⟩, ⟨none, some (1/10)⟩] ∧
    (0:ℚ) < 100 ∧ (100:ℚ) ≤ 200 ∧
    (apply_progressive [⟨some 100, some (1/2)⟩, ⟨none, some (1/10)⟩] 200).1 * 100 <
      (apply_progressive [⟨some 100, some (1/2)⟩, ⟨none, some (1/10)⟩] 100).1 * 200 := by
  refine ⟨⟨?_, ?_⟩, by norm_num, by norm_num, ?_⟩
  · intro r hr
    fin_cases hr <;> norm_num [rateVal]
  · simp [List.pairwise_cons, capKey]
  · norm_num [apply_progressive, sanitize_brackets, applyGo, slabAmt, rateNorm, lastRate,
      List.insertionSort, List.orderedInsert, entLE, capKey]

/-- Claim C1 witness: concrete monotone and average-rate instances on the
valid, rate-sorted schedule [(100, 1/10), (open-ended, 3/10)]. -/
theorem claim1_witness :
    (apply_progressive [⟨some 100, some (1/10)⟩, ⟨none, some (3/10)⟩] 50).1 ≤
      (apply_progressive [⟨some 100, some (1/10)⟩, ⟨none, some (3/10)⟩] 200).1 ∧
    (apply_progressive [⟨some 100, some (1/10)⟩, ⟨none, some (3/10)⟩] 50).1 * 200 ≤
      (apply_progressive [⟨some 100, some (1/10)⟩, ⟨none, some (3/10)⟩] 200).1 * 50 := by
  have h := claim1_amended [⟨some 100, some (1/10)⟩, ⟨none, some (3/10)⟩] 50 200
    ⟨by intro r hr; fin_cases hr <;> norm_num [rateVal],
     by simp [List.pairwise_cons, capKey]⟩
    (by norm_num)
  exact ⟨h.1, h.2 (by norm_num [List.pairwise_cons, rateVal]) (by norm_num)⟩

/-- Claim C4 (amended): re-normalizing the raw-row rendering of a sanitized
schedule is the identity provided every raw rate is at most 100: rates then
normalize into the unit interval and stay fixed, the schedule is already
sorted, and an open-ended row is already present. A raw rate above 100 breaks
idempotence. -/
theorem claim4_amended (rows : List RawRow) (h : ∀ r ∈ rows, rateVal r ≤ 100) :
    sanitize_brackets (toRawRows (sanitize_brackets rows)) = sanitize_brackets rows := by
  apply sanitize_eq_of
  · exact sanitize_ne_nil rows
  · exact sanitize_sorted rows
  · exact sanitize_rate_le_one fun r hr => h r hr
  · have hc : 0 < (sanitize_brackets rows).countP (fun e => e.cap.isNone) := by
      rw [sanitize_countP rows]
      exact lt_of_lt_of_le Nat.one_pos (le_max_left _ _)
    exact hc.ne'

/-- Claim C4 counterexample: a raw rate of 150 normalizes to 3/2 on the first
pass and to 3/200 on the second, so normalization is not idempotent in
general. -/
theorem claim4_counterexample :
    sanitize_brackets [⟨none, some 150⟩] = [⟨none, 3/2⟩] ∧
    sanitize_brackets (toRawRows (sanitize_brackets [⟨none, some 150⟩])) = [⟨none, 3/200⟩] ∧
    sanitize_brackets (toRawRows (sanitize_brackets [⟨none, some 150⟩])) ≠
      sanitize_brackets [⟨none, some 150⟩] := by
  norm_num [sanitize_brackets, toRawRows, rateNorm, lastRate, List.insertionSort,
    List.orderedInsert, entLE, capKey]

/-- Claim C4 witness: idempotence at a concrete schedule with a
percentage-style rate. -/
theorem claim4_witness :
    sanitize_brackets (toRawRows (sanitize_brackets [⟨some 10, some 20⟩])) =
      sanitize_brackets [⟨some 10, some 20⟩] :=
  claim4_amended [⟨some 10, some 20⟩] (by intro r hr; fin_cases hr; norm_num [rateVal])

/-- Claim C6: the India policy computes the base tax from the progressive
schedule, a surcharge rate via a strict greater-than ladder checked highest
first with default 0, surcharge as base tax times that rate, a 4% cess on tax
plus surcharge, and their sum as local tax; in particular any total comp
strictly above 5,000,000 and at most 10,000,000 gets exactly the 10% rate. -/
theorem claim6_india_policy (brackets : List RawRow) (tc : ℚ) :
    india_local_tax brackets tc =
      (apply_progressive brackets tc).1 + (apply_progressive brackets tc).1 * sur_rate tc
        + 0.04 * ((apply_progressive brackets tc).1
          + (apply_progressive brackets tc).1 * sur_rate tc) ∧
    (20000000 < tc → sur_rate tc = 0.25) ∧
    (10000000 < tc → tc ≤ 20000000 → sur_rate tc = 0.15) ∧
    (5000000 < tc → tc ≤ 10000000 → sur_rate tc = 0.10) ∧
    (tc ≤ 5000000 → sur_rate tc = 0) := by
  refine ⟨rfl, ?_, ?_, ?_, ?_⟩
  · intro h
    simp only [sur_rate]
    rw [if_pos h]
  · intro h1 h2
    simp only [sur_rate]
    rw [if_neg (not_lt.mpr h2), if_pos h1]
  · intro h1 h2
    simp only [sur_rate]
    rw [if_neg (not_lt.mpr (h2.trans (by norm_num))), if_neg (not_lt.mpr h2), if_pos h1]
  · intro h
    simp only [sur_rate]
    rw [if_neg (not_lt.mpr (h.trans (by norm_num))),
      if_neg (not_lt.mpr (h.trans (by norm_num))), if_neg (not_lt.mpr h)]

/-- Claim C6 witness: the ladder at concrete incomes 25,000,000 / 15,000,000 /
6,000,000 / 1,000,000; the third lands in the 10% band (not 15%, not 0%). -/
theorem claim6_witness :
    sur_rate 25000000 = 0.25 ∧ sur_rate 15000000 = 0.15 ∧
    sur_rate 6000000 = 0.10 ∧ sur_rate 1000000 = 0 :=
  ⟨(claim6_india_policy [] 25000000).2.1 (by norm_num),
   (claim6_india_policy [] 15000000).2.2.1 (by norm_num) (by norm_num),
   (claim6_india_policy [] 6000000).2.2.2.1 (by norm_num) (by norm_num),
   (claim6_india_policy [] 1000000).2.2.2.2 (by norm_num)⟩

/-- Claim C7: overlay equations — the taxable base is the combined earned plus
RSU figure minus exclusion and standard deduction floored at 0, the tentative
tax comes from the home schedule on that base, the credit is the minimum of
the local tax and the tentative tax (so it exceeds neither), the tax due is
the residual floored at 0, and combined tax and net stack as in the source;
in particular tentative tax 15000 against local tax 20000 gives credit 15000
and tax due 0. -/
theorem claim7_overlay (br : List RawRow) (e r lt feie sd : ℚ)
    (_he : 0 ≤ e) (_hr : 0 ≤ r) (_hlt : 0 ≤ lt) (_hf : 0 ≤ feie) (_hs : 0 ≤ sd) :
    (overlay_calc br e r lt feie sd).us_taxable = max ((e + r) - feie - sd) 0 ∧
    (overlay_calc br e r lt feie sd).us_tax =
      (apply_progressive br (max ((e + r) - feie - sd) 0)).1 ∧
    (overlay_calc br e r lt feie sd).ftc =
      min lt (overlay_calc br e r lt feie sd).us_tax ∧
    (overlay_calc br e r lt feie sd).ftc ≤ (overlay_calc br e r lt feie sd).us_tax ∧
    (overlay_calc br e r lt feie sd).ftc ≤ lt ∧
    (overlay_calc br e r lt feie sd).us_due =
      max ((overlay_calc br e r lt feie sd).us_tax - (overlay_calc br e r lt feie sd).ftc) 0 ∧
    (overlay_calc br e r lt feie sd).combined_tax =
      lt + (overlay_calc br e r lt feie sd).us_due ∧
    (overlay_calc br e r lt feie sd).combined_net =
      (e + r) - (overlay_calc br e r lt feie sd).combined_tax ∧
    (lt = 20000 → (overlay_calc br e r lt feie sd).us_tax = 15000 →
      (overlay_calc br e r lt feie sd).ftc = 15000 ∧
      (overlay_calc br e r lt feie sd).us_due = 0) := by
  refine ⟨rfl, rfl, rfl, min_le_right _ _, min_le_left _ _, rfl, rfl, rfl, fun h1 h2 => ?_⟩
  constructor
  · show min lt (overlay_calc br e r lt feie sd).us_tax = 15000
    rw [h2, h1]
    norm_num
  · show max ((overlay_calc br e r lt feie sd).us_tax -
      min lt (overlay_calc br e r lt feie sd).us_tax) 0 = 0
    rw [h2, h1]
    norm_num

/-- Claim C7 witness: with a flat 10% schedule, earned 150000 USD, local tax
20000 USD and zero exclusion and deduction, the tentative tax is 15000, the
credit used is 15000 and no US tax is due. -/
theorem claim7_witness :
    (overlay_calc [⟨none, some (1/10)⟩] 150000 0 20000 0 0).ftc = 15000 ∧
    (overlay_calc [⟨none, some (1/10)⟩] 150000 0 20000 0 0).us_due = 0 := by
  have h := claim7_overlay [⟨none, some (1/10)⟩] 150000 0 20000 0 0
    (by norm_num) (by norm_num) (by norm_num) (by norm_num) (by norm_num)
  refine h.2.2.2.2.2.2.2.2 rfl ?_
  show (apply_progressive [⟨none, some (1/10)⟩] (max ((150000 + 0) - 0 - 0) 0)).1 = 15000
  norm_num [apply_progressive, sanitize_brackets, applyGo, slabAmt, rateNorm, lastRate,
    List.insertionSort, List.orderedInsert, entLE, capKey]

/-- Claim C8: a non-positive FX rate blocks the overlay with the source's
human-readable reason and produces no overlay result; any positive FX rate
computes an overlay result, so the FX guard is the only aborting condition. -/
theorem claim8_fx_guard (fx : ℚ) (br : List RawRow) (e r lt feie sd : ℚ) :
    (fx ≤ 0 → compute_overlay fx br e r lt feie sd =
      Except.error ("FX must be greater than zero for USD calculations.")) ∧
    (0 < fx → compute_overlay fx br e r lt feie sd =
      Except.ok (overlay_calc br (e / fx) (r / fx) (lt / fx) feie sd)) := by
  constructor
  · intro h
    simp [compute_overlay, h]
  · intro h
    simp [compute_overlay, not_le.mpr h]

/-- Claim C8 witness: FX 0 is blocked with the reason, FX 1 computes a
result. -/
theorem claim8_witness :
    compute_overlay 0 [] 100 0 0 0 0 =
      Except.error ("FX must be greater than zero for USD calculations.") ∧
    compute_overlay 1 [] 100 0 0 0 0 = Except.ok (overlay_calc [] 100 0 0 0 0) := by
  refine ⟨(claim8_fx_guard 0 [] 100 0 0 0 0).1 le_rfl, ?_⟩
  have h := (claim8_fx_guard 1 [] 100 0 0 0 0).2 (by norm_num)
  simpa using h

end ExpatTax
